import Mathlib

/-!
Verification of the batch augmentation routine `augment(folder_path, quantity)`
from `src/remx/pre-processing-01.ipynb`.

The Python routine walks a dataset directory tree with `os.walk(folder_path)`;
for every visited directory and every immediate subdirectory name `dirname`
other than `"augmented"` it computes
`nested_folder_path = os.path.join(folder_path, dirname)` — note: joined with
the ROOT `folder_path`, not with the visited `dirpath` — lists that path,
draws `min(quantity, len(files))` entries without replacement with
`np.random.choice`, and for every sampled entry ending in `.jpg` or `.png`
reads the image, lazily creates `nested_folder_path/augmented`, builds the
output name `filename.split(".")[0] + "-aug." + filename.split(".")[1]`,
applies the external transform and writes the result.

Shallow embedding:
  * the filesystem is a finite tree `FSTree`; paths are lists of components
    (`os.path.join a b` for a simple name `b` appends one component);
  * the random sampler, the image decoder (`cv2.imread` — a decode failure
    yields `None`, which makes the subsequent transform call raise), the
    external transform, and the image writer are opaque collaborators
    supplied in a `Config`; failures of the latter three abort the run, as
    the notebook has no exception handling;
  * the run returns the final overlay state (directories created and files
    written during the run), the trace of filesystem events, and the error
    that aborted the run, if any;
  * a missing (or non-directory) root is faithfully modelled after
    `os.walk`, whose default `onerror=None` swallows the `scandir` error on
    the top directory and simply yields no entries.

Mutation during the walk is modelled by an overlay: directories created by
the run are recorded in `St.created` and files written in `St.written`.
Every directory the run creates is a fresh `<d>/augmented` directory; such a
directory has no subdirectories at any time (only written files land in it),
so visiting it during the walk contributes a frame whose subdirectory list is
empty and which therefore performs no action and emits no event; likewise a
created `augmented` entry appearing in a later frame's subdirectory list is
skipped by the `dirname != "augmented"` guard.  The walk below therefore
recurses over the static tree, while `listdir` and the existence check
consult the overlay, which is exactly where the mutation is observable.
-/

/-- A filesystem node: a file or a directory with an ordered list of
children. -/
inductive FSTree where
  | file (nm : String)
  | dir (nm : String) (children : List FSTree)

/-- Name of a node. -/
def FSTree.nm : FSTree → String
  | .file n => n
  | .dir n _ => n

/-- Is the node a directory? -/
def FSTree.isDir : FSTree → Bool
  | .file _ => false
  | .dir _ _ => true

/-- Look up a child by name (directory entries are unique in a real
filesystem; the first match is taken). -/
def findChild (cs : List FSTree) (s : String) : Option FSTree :=
  cs.find? (fun c => c.nm == s)

/-- Resolve a path, given as a list of components, against a tree. -/
def resolve : List String → FSTree → Option FSTree
  | [], t => some t
  | s :: rest, FSTree.dir _ cs =>
      match findChild cs s with
      | some c => resolve rest c
      | none => none
  | _ :: _, FSTree.file _ => none

/-- The names of the immediate subdirectories of a directory with children
`cs` — the `dirnames` component of an `os.walk` triple. -/
def subdirNames (cs : List FSTree) : List String :=
  (cs.filter FSTree.isDir).map FSTree.nm

/-- The names of all immediate entries (files and directories) of a
directory with children `cs` — what `os.listdir` returns. -/
def entryNames (cs : List FSTree) : List String :=
  cs.map FSTree.nm

/-- Overlay state accumulated by a run: directories created by
`os.makedirs` and files written by `cv2.imwrite`, both as root-relative
component paths. -/
structure St where
  created : List (List String)
  written : List (List String)
deriving Repr, DecidableEq

/-- The empty overlay at the start of a run. -/
def St.init : St := ⟨[], []⟩

/-- Filesystem events a run can perform, in root-relative component paths:
listing a directory (with the entries obtained), opening an image for
decoding, creating a directory, writing an output file. -/
inductive Event where
  | listE (p : List String) (entries : List String)
  | readE (p : List String)
  | mkdirE (p : List String)
  | writeE (p : List String)
deriving Repr, DecidableEq

/-- `os.listdir` on path `p`: the entries of the directory at `p` in the
base tree, plus the `augmented` entry when the run has created
`p/augmented` and the base tree does not already have an entry of that
name there.  `none` models the `FileNotFoundError`/`NotADirectoryError`
raised when `p` is not an existing directory.  (Created directories are
always of the form `[d, "augmented"]` and written files of the form
`[d, "augmented", g]`, while the routine only ever lists single-component
paths `[d]`, so no other overlay entry can show up in a listing.) -/
def listdir (root : FSTree) (st : St) (p : List String) : Option (List String) :=
  match resolve p root with
  | some (FSTree.dir _ cs) =>
      some (entryNames cs ++
        (if st.created.contains (p ++ ["augmented"]) &&
            !((entryNames cs).contains "augmented") then ["augmented"] else []))
  | _ => none

/-- `os.path.exists` on path `p`, seeing both the base tree and the
directories created so far. -/
def pathExists (root : FSTree) (st : St) (p : List String) : Bool :=
  (resolve p root).isSome || st.created.contains p

/-- `filename.endswith(".jpg") or filename.endswith(".png")` — the
(case-sensitive) eligibility filter of the notebook, as a suffix test on
the character list of the name. -/
def eligible (s : String) : Bool :=
  (".jpg".toList).isSuffixOf s.toList || (".png".toList).isSuffixOf s.toList

/-- Python's `str.split` with a one-character separator: split at every
occurrence, keeping empty segments (`"a..b".split(".") == ["a","","b"]`,
`"".split(".") == [""]`). -/
def splitOnChar (c : Char) : List Char → List (List Char)
  | [] => [[]]
  | x :: xs =>
      if x = c then [] :: splitOnChar c xs
      else
        match splitOnChar c xs with
        | h :: t => (x :: h) :: t
        | [] => [[x]]

/-- The output filename computation of the notebook, on character lists:
`filename.split(".")[0] + "-aug." + filename.split(".")[1]`.  (For every
name the routine applies this to, the split has at least two segments, so
the `getD` defaults are never used.) -/
def augNameL (l : List Char) : List Char :=
  (splitOnChar '.' l).getD 0 [] ++ ("-aug.".toList) ++ (splitOnChar '.' l).getD 1 []

/-- The output filename computation on strings. -/
def augName (s : String) : String :=
  String.mk (augNameL s.toList)

/-- The opaque collaborators and parameters of a run: the quantity, the
random sampler (`np.random.choice(files, k, replace=False)`), and the
success predicates of the decoder, the transform and the writer, keyed by
the source image path (the decoded image is determined by the file it was
read from) resp. the output path. -/
structure Config where
  quantity : Nat
  sample : List String → Nat → List String
  decodeOk : List String → Bool
  transformOk : List String → Bool
  writeOk : List String → Bool

/-- A correct sampler: when asked for `k ≤ |l|` elements it returns `k`
elements of `l`, without replacement (distinct positions, hence a
duplicate-free result whenever `l` is duplicate-free). -/
def SampleSpec (f : List String → Nat → List String) : Prop :=
  ∀ l k, k ≤ l.length →
    (f l k).length = k ∧ (∀ x ∈ f l k, x ∈ l) ∧ (l.Nodup → (f l k).Nodup)

/-- Sequencing with the abort-on-first-error behaviour of code without
exception handling: if `r` ended without error, continue with `k` from
`r`'s state and concatenate the traces; otherwise stop with `r`. -/
def andThen (r : St × List Event × Option String)
    (k : St → St × List Event × Option String) : St × List Event × Option String :=
  match r.2.2 with
  | none => ((k r.1).1, r.2.1 ++ (k r.1).2.1, (k r.1).2.2)
  | some _ => r

/-- The `os.makedirs` guarded by `os.path.exists` of the notebook:
idempotent creation of the output directory. -/
def mkdirStep (root : FSTree) (st : St) (outDir : List String) : St × List Event :=
  if pathExists root st outDir then (st, [])
  else ({ st with created := st.created ++ [outDir] }, [Event.mkdirE outDir])

/-- Processing of one sampled entry `fname` of the folder `[d]` — the body
of the innermost loop of `augment`.  Order as in the notebook: `cv2.imread`,
lazy creation of the `augmented` directory, output-name computation, the
transform call (which raises both when the decode returned `None` and when
the transform itself fails), `cv2.imwrite`. -/
def processFile (cfg : Config) (root : FSTree) (st : St) (d fname : String) :
    St × List Event × Option String :=
  if eligible fname then
    let imgPath := [d, fname]
    let md := mkdirStep root st [d, "augmented"]
    let outPath := [d, "augmented", augName fname]
    if cfg.decodeOk imgPath && cfg.transformOk imgPath then
      if cfg.writeOk outPath then
        ({ md.1 with written := md.1.written ++ [outPath] },
          Event.readE imgPath :: md.2 ++ [Event.writeE outPath], none)
      else (md.1, Event.readE imgPath :: md.2, some "write failure")
    else (md.1, Event.readE imgPath :: md.2, some "transform failure")
  else (st, [], none)

/-- Processing of the whole sampled list for folder `[d]`; an uncaught
failure aborts the loop. -/
def processFiles (cfg : Config) (root : FSTree) (st : St) (d : String) :
    List String → St × List Event × Option String
  | [] => (st, [], none)
  | f :: rest =>
      andThen (processFile cfg root st d f)
        (fun st1 => processFiles cfg root st1 d rest)

/-- Processing of one subdirectory name `d`: list `os.path.join(folder_path,
d)` — the ROOT joined with `d` — then sample `min(quantity, len(files))`
entries and process them. -/
def processFolder (cfg : Config) (root : FSTree) (st : St) (d : String) :
    St × List Event × Option String :=
  match listdir root st [d] with
  | none => (st, [], some "listdir failure")
  | some files =>
      let r := processFiles cfg root st d
        (cfg.sample files (min cfg.quantity files.length))
      (r.1, Event.listE [d] files :: r.2.1, r.2.2)

/-- The loop over the `dirnames` of one `os.walk` frame, with the
`dirname != "augmented"` guard. -/
def processDirnames (cfg : Config) (root : FSTree) (st : St) :
    List String → St × List Event × Option String
  | [] => (st, [], none)
  | d :: rest =>
      if d = "augmented" then processDirnames cfg root st rest
      else
        andThen (processFolder cfg root st d)
          (fun st1 => processDirnames cfg root st1 rest)

mutual
/-- The top-down `os.walk` over the static tree: the frame of the visited
directory is processed, then each subdirectory is visited recursively, in
order.  (See the header comment: directories created mid-run are always
leaf `augmented` directories, so visiting them structurally is a no-op and
is omitted; their appearance in a frame's `dirnames` is skipped by the
guard.) -/
def walkTree (cfg : Config) (root : FSTree) (t : FSTree) (st : St) :
    St × List Event × Option String :=
  match t with
  | FSTree.file _ => (st, [], none)
  | FSTree.dir _ cs =>
      andThen (processDirnames cfg root st (subdirNames cs))
        (fun st1 => walkList cfg root cs st1)

/-- Visit a list of sibling nodes in order; files contribute nothing
(`os.walk` only yields directories). -/
def walkList (cfg : Config) (root : FSTree) (ts : List FSTree) (st : St) :
    St × List Event × Option String :=
  match ts with
  | [] => (st, [], none)
  | t :: rest =>
      andThen (walkTree cfg root t st)
        (fun st1 => walkList cfg root rest st1)
end

/-- The whole `augment(folder_path, quantity)` run.  `root = none` models a
`folder_path` that does not exist (or is not a directory): `os.walk` with
its default `onerror=None` swallows the scandir error and yields nothing,
so the run completes silently. -/
def augmentRun (cfg : Config) (root : Option FSTree) :
    St × List Event × Option String :=
  match root with
  | none => (St.init, [], none)
  | some t => walkTree cfg t t St.init

/-- The event trace of a run. -/
def runTrace (cfg : Config) (root : Option FSTree) : List Event :=
  (augmentRun cfg root).2.1

/-- The error, if any, that aborted a run. -/
def runErr (cfg : Config) (root : Option FSTree) : Option String :=
  (augmentRun cfg root).2.2

/-- The final overlay state of a run. -/
def runSt (cfg : Config) (root : Option FSTree) : St :=
  (augmentRun cfg root).1

mutual
/-- The static `os.walk` frames of a tree: every visited directory paired
with its immediate subdirectory names, in top-down order. -/
def framesTree (p : List String) (t : FSTree) : List (List String × List String) :=
  match t with
  | FSTree.file _ => []
  | FSTree.dir _ cs => (p, subdirNames cs) :: framesTreeList p cs

/-- Frames contributed by a list of sibling nodes (a file node contributes
none, since `framesTree` of a file is empty). -/
def framesTreeList (p : List String) (ts : List FSTree) :
    List (List String × List String) :=
  match ts with
  | [] => []
  | t :: rest => framesTree (p ++ [t.nm]) t ++ framesTreeList p rest
end

/-- A sampler usable in concrete runs: take the first `k` entries.  It
satisfies `SampleSpec`. -/
def takeSampler : List String → Nat → List String :=
  fun l k => l.take k

/-- A configuration whose decoder, transform and writer always succeed. -/
def allOk (cfg : Config) : Config :=
  { cfg with
    decodeOk := fun _ => true
    transformOk := fun _ => true
    writeOk := fun _ => true }


/-- The paths of the directory-creation events of a trace. -/
def mkdirPaths (tr : List Event) : List (List String) :=
  tr.filterMap fun e =>
    match e with
    | Event.mkdirE p => some p
    | _ => none

/-- The paths of the write events of a trace. -/
def writePaths (tr : List Event) : List (List String) :=
  tr.filterMap fun e =>
    match e with
    | Event.writeE p => some p
    | _ => none

/-- How many times the run opened the file at `p` for decoding. -/
def readCount (tr : List Event) (p : List String) : Nat :=
  tr.count (Event.readE p)

/-- The number of eligible image names among a folder's entries. -/
def eligibleCount (l : List String) : Nat :=
  (l.filter eligible).length

/-- The output-name computation as claim C4 words it: the text before the
first `.`, then `-aug.`, then the text after the first `.` (everything
after the first dot). -/
def augNameFirstSplit (s : String) : String :=
  String.mk (s.toList.takeWhile (fun c => c ≠ '.') ++ ("-aug.".toList) ++
    ((s.toList.dropWhile (fun c => c ≠ '.')).drop 1))

/-- The output-name computation as the amended claim words it: the text
before the first `.`, then `-aug.`, then the text strictly between the
first and the second `.` (empty when there is no second dot). -/
def augNameSecondSegment (s : String) : String :=
  String.mk (s.toList.takeWhile (fun c => c ≠ '.') ++ ("-aug.".toList) ++
    (((s.toList.dropWhile (fun c => c ≠ '.')).drop 1).takeWhile (fun c => c ≠ '.')))

/-- The invariant satisfied by every event of a run: listings are of
root-joined single-component paths away from `augmented`, reads are of
eligible files directly inside such a folder, directory creations are of
`[d, "augmented"]`, and writes are of `[d, "augmented", augName f]` for an
eligible source name `f`. -/
def EvShape : Event → Prop
  | Event.listE p _ => ∃ d, p = [d] ∧ d ≠ "augmented"
  | Event.readE p => ∃ d f, p = [d, f] ∧ d ≠ "augmented" ∧ eligible f = true
  | Event.mkdirE p => ∃ d, p = [d, "augmented"] ∧ d ≠ "augmented"
  | Event.writeE p =>
      ∃ d f, p = [d, "augmented", augName f] ∧ d ≠ "augmented" ∧ eligible f = true

/-- A small concrete configuration for witnesses: take-first sampling, all
collaborators succeed. -/
def cfgW (q : Nat) : Config :=
  { quantity := q, sample := takeSampler, decodeOk := fun _ => true,
    transformOk := fun _ => true, writeOk := fun _ => true }

/-- A dataset tree whose only images sit two levels below the root:
`root/A/B/b.jpg`. -/
def treeDeep : FSTree :=
  FSTree.dir "root" [FSTree.dir "A" [FSTree.dir "B" [FSTree.file "b.jpg"]]]

/-- A flat dataset tree with one category holding one image:
`root/A/b.jpg`. -/
def treeFlat : FSTree :=
  FSTree.dir "root" [FSTree.dir "A" [FSTree.file "b.jpg"]]

/-- A category folder holding one ineligible entry before one eligible
image: `root/catA/{b.txt, a.jpg}`. -/
def treeMixed : FSTree :=
  FSTree.dir "root" [FSTree.dir "catA" [FSTree.file "b.txt", FSTree.file "a.jpg"]]

/-- A category folder with two ineligible entries and one eligible image:
`root/catA/{b.txt, c.txt, a.jpg}`. -/
def treeFew : FSTree :=
  FSTree.dir "root"
    [FSTree.dir "catA" [FSTree.file "b.txt", FSTree.file "c.txt", FSTree.file "a.jpg"]]

/-- A category folder with a multi-dot image name:
`root/cat/img.photo.png`. -/
def treeDots : FSTree :=
  FSTree.dir "root" [FSTree.dir "cat" [FSTree.file "img.photo.png"]]

example : augName "cat.jpg" = "cat-aug.jpg" := by decide
example : augName "img.photo.png" = "img-aug.photo" := by decide
example : eligible "a.jpeg" = false := by decide
example :
    runTrace (cfgW 1)
      (some (FSTree.dir "root" [FSTree.dir "cat" [FSTree.file "a.jpg"]])) =
    [Event.listE ["cat"] ["a.jpg"], Event.readE ["cat", "a.jpg"],
     Event.mkdirE ["cat", "augmented"],
     Event.writeE ["cat", "augmented", "a-aug.jpg"]] := by decide

/-! ## Generic facts about the sequencing combinator -/

theorem andThen_events (r : St × List Event × Option String)
    (k : St → St × List Event × Option String) :
    (andThen r k).2.1 =
      r.2.1 ++ (match r.2.2 with | none => (k r.1).2.1 | some _ => []) := by
  rcases r with ⟨st, ev, e⟩
  cases e <;> simp [andThen]

theorem andThen_ok (r : St × List Event × Option String)
    (k : St → St × List Event × Option String) (h : r.2.2 = none) :
    andThen r k = ((k r.1).1, r.2.1 ++ (k r.1).2.1, (k r.1).2.2) := by
  unfold andThen
  rw [h]

theorem andThen_err (r : St × List Event × Option String)
    (k : St → St × List Event × Option String) (e : String) (h : r.2.2 = some e) :
    andThen r k = r := by
  unfold andThen
  rw [h]

theorem mem_andThen (r : St × List Event × Option String)
    (k : St → St × List Event × Option String) (e : Event)
    (he : e ∈ (andThen r k).2.1) : e ∈ r.2.1 ∨ e ∈ (k r.1).2.1 := by
  rw [andThen_events] at he
  rcases List.mem_append.mp he with h | h
  · exact Or.inl h
  · rcases hr : r.2.2 with _ | err
    · rw [hr] at h; exact Or.inr h
    · rw [hr] at h; simp at h

/-! ## The shape of every event a run can emit -/

theorem mkdirStep_events (root : FSTree) (st : St) (p : List String) :
    ∀ e ∈ (mkdirStep root st p).2, e = Event.mkdirE p := by
  intro e he
  unfold mkdirStep at he
  split at he
  · simp at he
  · simp only [List.mem_singleton] at he
    exact he

theorem processFile_shape (cfg : Config) (root : FSTree) (st : St) (d f : String)
    (hd : d ≠ "augmented") :
    ∀ e ∈ (processFile cfg root st d f).2.1, EvShape e := by
  intro e he
  unfold processFile at he
  by_cases hel : eligible f
  · simp only [hel, if_true] at he
    have hmd := mkdirStep_events root st [d, "augmented"]
    split at he
    · split at he
      · simp only [List.cons_append, List.mem_cons, List.mem_append,
          List.mem_singleton, List.not_mem_nil, or_false] at he
        rcases he with he | he | he
        · subst he; exact ⟨d, f, rfl, hd, hel⟩
        · rw [hmd e he]; exact ⟨d, rfl, hd⟩
        · subst he; exact ⟨d, f, rfl, hd, hel⟩
      · simp only [List.mem_cons] at he
        rcases he with he | he
        · subst he; exact ⟨d, f, rfl, hd, hel⟩
        · rw [hmd e he]; exact ⟨d, rfl, hd⟩
    · simp only [List.mem_cons] at he
      rcases he with he | he
      · subst he; exact ⟨d, f, rfl, hd, hel⟩
      · rw [hmd e he]; exact ⟨d, rfl, hd⟩
  · simp only [hel, if_false] at he
    simp at he

theorem processFiles_shape (cfg : Config) (root : FSTree) (d : String)
    (hd : d ≠ "augmented") (fs : List String) :
    ∀ (st : St), ∀ e ∈ (processFiles cfg root st d fs).2.1, EvShape e := by
  induction fs with
  | nil => intro st e he; simp [processFiles] at he
  | cons f rest ih =>
      intro st e he
      unfold processFiles at he
      rcases mem_andThen _ _ e he with h | h
      · exact processFile_shape cfg root st d f hd e h
      · exact ih _ e h

theorem processFolder_shape (cfg : Config) (root : FSTree) (st : St) (d : String)
    (hd : d ≠ "augmented") :
    ∀ e ∈ (processFolder cfg root st d).2.1, EvShape e := by
  intro e he
  unfold processFolder at he
  rcases hls : listdir root st [d] with _ | files
  · rw [hls] at he; simp at he
  · rw [hls] at he
    simp only [List.mem_cons] at he
    rcases he with he | he
    · subst he; exact ⟨d, rfl, hd⟩
    · exact processFiles_shape cfg root d hd _ st e he

theorem processDirnames_shape (cfg : Config) (root : FSTree) (ds : List String) :
    ∀ (st : St), ∀ e ∈ (processDirnames cfg root st ds).2.1, EvShape e := by
  induction ds with
  | nil => intro st e he; simp [processDirnames] at he
  | cons d rest ih =>
      intro st e he
      unfold processDirnames at he
      by_cases hda : d = "augmented"
      · simp only [hda, if_true] at he
        exact ih st e he
      · simp only [hda, if_false] at he
        rcases mem_andThen _ _ e he with h | h
        · exact processFolder_shape cfg root st d hda e h
        · exact ih _ e h

mutual
theorem walkTree_shape (cfg : Config) (root : FSTree) (t : FSTree) (st : St) :
    ∀ e ∈ (walkTree cfg root t st).2.1, EvShape e := by
  intro e he
  match t with
  | FSTree.file n => simp [walkTree] at he
  | FSTree.dir n cs =>
      unfold walkTree at he
      rcases mem_andThen _ _ e he with h | h
      · exact processDirnames_shape cfg root (subdirNames cs) st e h
      · exact walkList_shape cfg root cs _ e h

theorem walkList_shape (cfg : Config) (root : FSTree) (ts : List FSTree) (st : St) :
    ∀ e ∈ (walkList cfg root ts st).2.1, EvShape e := by
  intro e he
  match ts with
  | [] => simp [walkList] at he
  | t :: rest =>
      unfold walkList at he
      rcases mem_andThen _ _ e he with h | h
      · exact walkTree_shape cfg root t st e h
      · exact walkList_shape cfg root rest _ e h
end

theorem runTrace_shape (cfg : Config) (root : Option FSTree) :
    ∀ e ∈ runTrace cfg root, EvShape e := by
  intro e he
  cases root with
  | none => simp [runTrace, augmentRun] at he
  | some t => exact walkTree_shape cfg t t St.init e he

/-! ## Linking the final overlay state to the trace

The directories in `created` (resp. files in `written`) at the end of a
run segment are exactly the initial ones followed by the paths of the
`mkdirE` (resp. `writeE`) events of its trace. -/

theorem mkdirPaths_append (a b : List Event) :
    mkdirPaths (a ++ b) = mkdirPaths a ++ mkdirPaths b :=
  List.filterMap_append a b _

theorem writePaths_append (a b : List Event) :
    writePaths (a ++ b) = writePaths a ++ writePaths b :=
  List.filterMap_append a b _

theorem andThen_st (r : St × List Event × Option String)
    (k : St → St × List Event × Option String) (st : St)
    (hr1 : r.1.created = st.created ++ mkdirPaths r.2.1)
    (hr2 : r.1.written = st.written ++ writePaths r.2.1)
    (hk1 : (k r.1).1.created = r.1.created ++ mkdirPaths (k r.1).2.1)
    (hk2 : (k r.1).1.written = r.1.written ++ writePaths (k r.1).2.1) :
    (andThen r k).1.created = st.created ++ mkdirPaths (andThen r k).2.1 ∧
    (andThen r k).1.written = st.written ++ writePaths (andThen r k).2.1 := by
  rcases he : r.2.2 with _ | err
  · rw [andThen_ok _ _ he]
    constructor
    · simp only [mkdirPaths_append, hk1, hr1, List.append_assoc]
    · simp only [writePaths_append, hk2, hr2, List.append_assoc]
  · rw [andThen_err _ _ _ he]
    exact ⟨hr1, hr2⟩

theorem processFile_st (cfg : Config) (root : FSTree) (st : St) (d f : String) :
    (processFile cfg root st d f).1.created =
      st.created ++ mkdirPaths (processFile cfg root st d f).2.1 ∧
    (processFile cfg root st d f).1.written =
      st.written ++ writePaths (processFile cfg root st d f).2.1 := by
  by_cases hel : eligible f = true <;>
    by_cases hex : pathExists root st [d, "augmented"] = true <;>
      by_cases hdt : (cfg.decodeOk [d, f] && cfg.transformOk [d, f]) = true <;>
        by_cases hw : cfg.writeOk [d, "augmented", augName f] = true <;>
          simp [processFile, mkdirStep, hel, hex, hdt, hw, mkdirPaths, writePaths,
            List.filterMap_cons, List.filterMap_append]

theorem processFiles_st (cfg : Config) (root : FSTree) (d : String)
    (fs : List String) :
    ∀ st : St,
      (processFiles cfg root st d fs).1.created =
        st.created ++ mkdirPaths (processFiles cfg root st d fs).2.1 ∧
      (processFiles cfg root st d fs).1.written =
        st.written ++ writePaths (processFiles cfg root st d fs).2.1 := by
  induction fs with
  | nil => intro st; simp [processFiles, mkdirPaths, writePaths]
  | cons f rest ih =>
      intro st
      unfold processFiles
      exact andThen_st _ _ st (processFile_st cfg root st d f).1
        (processFile_st cfg root st d f).2 (ih _).1 (ih _).2

theorem processFolder_st (cfg : Config) (root : FSTree) (st : St) (d : String) :
    (processFolder cfg root st d).1.created =
      st.created ++ mkdirPaths (processFolder cfg root st d).2.1 ∧
    (processFolder cfg root st d).1.written =
      st.written ++ writePaths (processFolder cfg root st d).2.1 := by
  unfold processFolder
  rcases hls : listdir root st [d] with _ | files
  · simp [mkdirPaths, writePaths]
  · have h := processFiles_st cfg root d
      (cfg.sample files (min cfg.quantity files.length)) st
    simpa [mkdirPaths, writePaths] using h

theorem processDirnames_st (cfg : Config) (root : FSTree) (ds : List String) :
    ∀ st : St,
      (processDirnames cfg root st ds).1.created =
        st.created ++ mkdirPaths (processDirnames cfg root st ds).2.1 ∧
      (processDirnames cfg root st ds).1.written =
        st.written ++ writePaths (processDirnames cfg root st ds).2.1 := by
  induction ds with
  | nil => intro st; simp [processDirnames, mkdirPaths, writePaths]
  | cons d rest ih =>
      intro st
      unfold processDirnames
      by_cases hda : d = "augmented"
      · simp only [hda, if_true]
        exact ih st
      · simp only [hda, if_false]
        exact andThen_st _ _ st (processFolder_st cfg root st d).1
          (processFolder_st cfg root st d).2 (ih _).1 (ih _).2

mutual
theorem walkTree_st (cfg : Config) (root : FSTree) (t : FSTree) (st : St) :
    (walkTree cfg root t st).1.created =
      st.created ++ mkdirPaths (walkTree cfg root t st).2.1 ∧
    (walkTree cfg root t st).1.written =
      st.written ++ writePaths (walkTree cfg root t st).2.1 := by
  match t with
  | FSTree.file n => simp [walkTree, mkdirPaths, writePaths]
  | FSTree.dir n cs =>
      unfold walkTree
      exact andThen_st _ _ st (processDirnames_st cfg root (subdirNames cs) st).1
        (processDirnames_st cfg root (subdirNames cs) st).2
        (walkList_st cfg root cs _).1 (walkList_st cfg root cs _).2

theorem walkList_st (cfg : Config) (root : FSTree) (ts : List FSTree) (st : St) :
    (walkList cfg root ts st).1.created =
      st.created ++ mkdirPaths (walkList cfg root ts st).2.1 ∧
    (walkList cfg root ts st).1.written =
      st.written ++ writePaths (walkList cfg root ts st).2.1 := by
  match ts with
  | [] => simp [walkList, mkdirPaths, writePaths]
  | t :: rest =>
      unfold walkList
      exact andThen_st _ _ st (walkTree_st cfg root t st).1
        (walkTree_st cfg root t st).2
        (walkList_st cfg root rest _).1 (walkList_st cfg root rest _).2
end

theorem runSt_eq (cfg : Config) (root : Option FSTree) :
    (runSt cfg root).created = mkdirPaths (runTrace cfg root) ∧
    (runSt cfg root).written = writePaths (runTrace cfg root) := by
  cases root with
  | none => simp [runSt, runTrace, augmentRun, St.init, mkdirPaths, writePaths]
  | some t =>
      have h := walkTree_st cfg t t St.init
      simpa [runSt, runTrace, augmentRun, St.init] using h

/-! ## A run with `quantity = 0` only lists directories -/

theorem processFolder_q0 (cfg : Config) (root : FSTree) (st : St) (d : String)
    (hs : SampleSpec cfg.sample) (hq : cfg.quantity = 0) :
    (processFolder cfg root st d).1 = st ∧
    ∀ e ∈ (processFolder cfg root st d).2.1, ∃ p es, e = Event.listE p es := by
  rcases hls : listdir root st [d] with _ | files
  · simp [processFolder, hls]
  · have hk : min cfg.quantity files.length = 0 := by simp [hq]
    have hlen := (hs files (min cfg.quantity files.length)
      (by rw [hk]; exact Nat.zero_le _)).1
    rw [hk] at hlen
    have hnil : cfg.sample files (min cfg.quantity files.length) = [] := by
      rw [hk]
      exact List.length_eq_zero.mp hlen
    constructor
    · simp [processFolder, hls, hnil, processFiles]
    · intro e he
      simp only [processFolder, hls, hnil, processFiles] at he
      simp only [List.mem_singleton] at he
      exact ⟨[d], files, he⟩

theorem processDirnames_q0 (cfg : Config) (root : FSTree) (ds : List String)
    (hs : SampleSpec cfg.sample) (hq : cfg.quantity = 0) :
    ∀ st : St,
      (processDirnames cfg root st ds).1 = st ∧
      ∀ e ∈ (processDirnames cfg root st ds).2.1, ∃ p es, e = Event.listE p es := by
  induction ds with
  | nil => intro st; simp [processDirnames]
  | cons d rest ih =>
      intro st
      unfold processDirnames
      by_cases hda : d = "augmented"
      · simp only [hda, if_true]
        exact ih st
      · simp only [hda, if_false]
        rcases processFolder_q0 cfg root st d hs hq with ⟨hst, hev⟩
        constructor
        · rcases he : (processFolder cfg root st d).2.2 with _ | err
          · rw [andThen_ok _ _ he]
            dsimp only
            rw [hst]
            exact (ih st).1
          · rw [andThen_err _ _ _ he]
            exact hst
        · intro e he
          rcases mem_andThen _ _ e he with h | h
          · exact hev e h
          · rw [hst] at h
            exact (ih st).2 e h

mutual
theorem walkTree_q0 (cfg : Config) (root : FSTree) (t : FSTree) (st : St)
    (hs : SampleSpec cfg.sample) (hq : cfg.quantity = 0) :
    (walkTree cfg root t st).1 = st ∧
    ∀ e ∈ (walkTree cfg root t st).2.1, ∃ p es, e = Event.listE p es := by
  match t with
  | FSTree.file n => simp [walkTree]
  | FSTree.dir n cs =>
      unfold walkTree
      rcases processDirnames_q0 cfg root (subdirNames cs) hs hq st with ⟨hst, hev⟩
      constructor
      · rcases he : (processDirnames cfg root st (subdirNames cs)).2.2 with _ | err
        · rw [andThen_ok _ _ he]
          dsimp only
          rw [hst]
          exact (walkList_q0 cfg root cs st hs hq).1
        · rw [andThen_err _ _ _ he]
          exact hst
      · intro e he
        rcases mem_andThen _ _ e he with h | h
        · exact hev e h
        · rw [hst] at h
          exact (walkList_q0 cfg root cs st hs hq).2 e h

theorem walkList_q0 (cfg : Config) (root : FSTree) (ts : List FSTree) (st : St)
    (hs : SampleSpec cfg.sample) (hq : cfg.quantity = 0) :
    (walkList cfg root ts st).1 = st ∧
    ∀ e ∈ (walkList cfg root ts st).2.1, ∃ p es, e = Event.listE p es := by
  match ts with
  | [] => simp [walkList]
  | t :: rest =>
      unfold walkList
      rcases walkTree_q0 cfg root t st hs hq with ⟨hst, hev⟩
      constructor
      · rcases he : (walkTree cfg root t st).2.2 with _ | err
        · rw [andThen_ok _ _ he]
          dsimp only
          rw [hst]
          exact (walkList_q0 cfg root rest st hs hq).1
        · rw [andThen_err _ _ _ he]
          exact hst
      · intro e he
        rcases mem_andThen _ _ e he with h | h
        · exact hev e h
        · rw [hst] at h
          exact (walkList_q0 cfg root rest st hs hq).2 e h
end

/-! ## Per-round read counts -/

theorem processFile_read_ne (cfg : Config) (root : FSTree) (st : St)
    (d g f : String) (hne : g ≠ f) :
    readCount (processFile cfg root st d g).2.1 [d, f] = 0 := by
  have hpath : Event.readE [d, g] ≠ Event.readE [d, f] := by
    simp [hne]
  by_cases hel : eligible g = true <;>
    by_cases hex : pathExists root st [d, "augmented"] = true <;>
      by_cases hdt : (cfg.decodeOk [d, g] && cfg.transformOk [d, g]) = true <;>
        by_cases hw : cfg.writeOk [d, "augmented", augName g] = true <;>
          simp [processFile, mkdirStep, hel, hex, hdt, hw, readCount,
            List.count_cons, List.count_append, hpath]

theorem processFile_read_self (cfg : Config) (root : FSTree) (st : St)
    (d g : String) (hok : (processFile cfg root st d g).2.2 = none) :
    readCount (processFile cfg root st d g).2.1 [d, g] =
      if eligible g = true then 1 else 0 := by
  by_cases hel : eligible g = true <;>
    by_cases hex : pathExists root st [d, "augmented"] = true <;>
      by_cases hdt : (cfg.decodeOk [d, g] && cfg.transformOk [d, g]) = true <;>
        by_cases hw : cfg.writeOk [d, "augmented", augName g] = true <;>
          simp_all [processFile, mkdirStep, readCount,
            List.count_cons, List.count_append]

theorem processFiles_read_notMem (cfg : Config) (root : FSTree) (d f : String)
    (fs : List String) (hf : f ∉ fs) :
    ∀ st : St, readCount (processFiles cfg root st d fs).2.1 [d, f] = 0 := by
  induction fs with
  | nil => intro st; simp [processFiles, readCount]
  | cons g rest ih =>
      intro st
      have hg : g ≠ f := fun h => hf (h ▸ List.mem_cons_self g rest)
      have hrest : f ∉ rest := fun h => hf (List.mem_cons_of_mem g h)
      unfold processFiles
      rw [readCount, andThen_events, List.count_append]
      have h1 := processFile_read_ne cfg root st d g f hg
      rw [readCount] at h1
      rw [h1]
      rcases he : (processFile cfg root st d g).2.2 with _ | err
      · have h2 := ih hrest ((processFile cfg root st d g).1)
        rw [readCount] at h2
        simpa using h2
      · simp

theorem processFiles_readCount (cfg : Config) (root : FSTree) (d : String)
    (fs : List String) (hnd : fs.Nodup) :
    ∀ st : St, (processFiles cfg root st d fs).2.2 = none →
      ∀ f, readCount (processFiles cfg root st d fs).2.1 [d, f] =
        if f ∈ fs ∧ eligible f = true then 1 else 0 := by
  induction fs with
  | nil => intro st _ f; simp [processFiles, readCount]
  | cons g rest ih =>
      intro st hok f
      have hnd2 := hnd
      rw [List.nodup_cons] at hnd2
      unfold processFiles at hok ⊢
      rcases he : (processFile cfg root st d g).2.2 with _ | err
      swap
      · rw [andThen_err _ _ _ he] at hok
        rw [he] at hok
        exact absurd hok (by simp)
      · rw [andThen_ok _ _ he] at hok ⊢
        dsimp only at hok ⊢
        rw [readCount, List.count_append]
        by_cases hfg : f = g
        · subst hfg
          have h1 := processFile_read_self cfg root st d f he
          rw [readCount] at h1
          rw [h1]
          have h2 := processFiles_read_notMem cfg root d f rest hnd2.1
            ((processFile cfg root st d f).1)
          rw [readCount] at h2
          rw [h2]
          by_cases hel : eligible f = true <;> simp [hel]
        · have h1 := processFile_read_ne cfg root st d g f (fun h => hfg h.symm)
          rw [readCount] at h1
          rw [h1]
          have h2 := ih hnd2.2 ((processFile cfg root st d g).1) hok f
          rw [readCount] at h2
          rw [h2]
          simp [hfg]

/-! ## Abort-on-first-error: the trace of a run is a prefix of the trace
of the same run with failure-free collaborators -/

theorem processFile_allOk_ok (cfg : Config) (root : FSTree) (st : St)
    (d f : String) :
    (processFile (allOk cfg) root st d f).2.2 = none := by
  by_cases hel : eligible f = true <;>
    by_cases hex : pathExists root st [d, "augmented"] = true <;>
      simp [processFile, mkdirStep, allOk, hel, hex]

theorem processFile_sim (cfg : Config) (root : FSTree) (st : St) (d f : String) :
    ((processFile cfg root st d f).2.2 = none →
      processFile cfg root st d f = processFile (allOk cfg) root st d f) ∧
    (processFile cfg root st d f).2.1 <+: (processFile (allOk cfg) root st d f).2.1 := by
  by_cases hel : eligible f = true <;>
    by_cases hex : pathExists root st [d, "augmented"] = true <;>
      by_cases hdt : (cfg.decodeOk [d, f] && cfg.transformOk [d, f]) = true <;>
        by_cases hw : cfg.writeOk [d, "augmented", augName f] = true <;>
          simp only [processFile, mkdirStep, allOk, hel, hex, hdt, hw, if_true,
            if_false, Bool.and_self, and_true, and_false, if_pos, if_neg,
            Bool.not_eq_true] <;>
          simp_all

theorem andThen_sim (r r' : St × List Event × Option String)
    (k k' : St → St × List Event × Option String)
    (hre : r.2.2 = none → r = r')
    (hrp : r.2.1 <+: r'.2.1)
    (hke : ∀ s, (k s).2.2 = none → k s = k' s)
    (hkp : ∀ s, (k s).2.1 <+: (k' s).2.1) :
    ((andThen r k).2.2 = none → andThen r k = andThen r' k') ∧
    (andThen r k).2.1 <+: (andThen r' k').2.1 := by
  rcases he : r.2.2 with _ | err
  · have hrr : r = r' := hre he
    subst hrr
    rw [andThen_ok _ _ he, andThen_ok _ _ he]
    constructor
    · intro hko
      dsimp only at hko
      rw [hke r.1 hko]
    · rcases hkp r.1 with ⟨t, ht⟩
      exact ⟨t, by rw [List.append_assoc, ht]⟩
  · rw [andThen_err _ _ _ he]
    constructor
    · intro h
      rw [he] at h
      cases h
    · have h2 : r'.2.1 <+: (andThen r' k').2.1 := by
        rw [andThen_events r' k']
        exact List.prefix_append _ _
      exact hrp.trans h2

theorem processFiles_sim (cfg : Config) (root : FSTree) (d : String)
    (fs : List String) :
    ∀ st : St,
      ((processFiles cfg root st d fs).2.2 = none →
        processFiles cfg root st d fs = processFiles (allOk cfg) root st d fs) ∧
      (processFiles cfg root st d fs).2.1 <+:
        (processFiles (allOk cfg) root st d fs).2.1 := by
  induction fs with
  | nil => intro st; exact ⟨fun _ => rfl, List.prefix_rfl⟩
  | cons f rest ih =>
      intro st
      unfold processFiles
      exact andThen_sim _ _ _ _ (processFile_sim cfg root st d f).1
        (processFile_sim cfg root st d f).2
        (fun s => (ih s).1) (fun s => (ih s).2)

theorem processFolder_sim (cfg : Config) (root : FSTree) (st : St) (d : String) :
    ((processFolder cfg root st d).2.2 = none →
      processFolder cfg root st d = processFolder (allOk cfg) root st d) ∧
    (processFolder cfg root st d).2.1 <+: (processFolder (allOk cfg) root st d).2.1 := by
  rcases hls : listdir root st [d] with _ | files
  · constructor
    · intro h
      simp [processFolder, hls] at h
    · simp [processFolder, hls]
  · have hq : (allOk cfg).quantity = cfg.quantity := rfl
    have hsm : (allOk cfg).sample = cfg.sample := rfl
    have h := processFiles_sim cfg root d
      (cfg.sample files (min cfg.quantity files.length)) st
    constructor
    · intro hok
      simp only [processFolder, hls] at hok ⊢
      rw [hq, hsm, ← h.1 hok]
    · simp only [processFolder, hls, hq, hsm]
      rcases h.2 with ⟨t, ht⟩
      exact ⟨t, by rw [List.cons_append, ht]⟩

theorem processDirnames_sim (cfg : Config) (root : FSTree) (ds : List String) :
    ∀ st : St,
      ((processDirnames cfg root st ds).2.2 = none →
        processDirnames cfg root st ds = processDirnames (allOk cfg) root st ds) ∧
      (processDirnames cfg root st ds).2.1 <+:
        (processDirnames (allOk cfg) root st ds).2.1 := by
  induction ds with
  | nil => intro st; exact ⟨fun _ => rfl, List.prefix_rfl⟩
  | cons d rest ih =>
      intro st
      unfold processDirnames
      by_cases hda : d = "augmented"
      · simp only [hda, if_true]
        exact ih st
      · simp only [hda, if_false]
        exact andThen_sim _ _ _ _ (processFolder_sim cfg root st d).1
          (processFolder_sim cfg root st d).2
          (fun s => (ih s).1) (fun s => (ih s).2)

mutual
theorem walkTree_sim (cfg : Config) (root : FSTree) (t : FSTree) (st : St) :
    ((walkTree cfg root t st).2.2 = none →
      walkTree cfg root t st = walkTree (allOk cfg) root t st) ∧
    (walkTree cfg root t st).2.1 <+: (walkTree (allOk cfg) root t st).2.1 := by
  match t with
  | FSTree.file n => exact ⟨fun _ => rfl, List.prefix_rfl⟩
  | FSTree.dir n cs =>
      unfold walkTree
      exact andThen_sim _ _ _ _
        (processDirnames_sim cfg root (subdirNames cs) st).1
        (processDirnames_sim cfg root (subdirNames cs) st).2
        (fun s => (walkList_sim cfg root cs s).1)
        (fun s => (walkList_sim cfg root cs s).2)

theorem walkList_sim (cfg : Config) (root : FSTree) (ts : List FSTree) (st : St) :
    ((walkList cfg root ts st).2.2 = none →
      walkList cfg root ts st = walkList (allOk cfg) root ts st) ∧
    (walkList cfg root ts st).2.1 <+: (walkList (allOk cfg) root ts st).2.1 := by
  match ts with
  | [] => exact ⟨fun _ => rfl, List.prefix_rfl⟩
  | t :: rest =>
      unfold walkList
      exact andThen_sim _ _ _ _ (walkTree_sim cfg root t st).1
        (walkTree_sim cfg root t st).2
        (fun s => (walkList_sim cfg root rest s).1)
        (fun s => (walkList_sim cfg root rest s).2)
end

theorem runTrace_sim (cfg : Config) (root : Option FSTree) :
    runTrace cfg root <+: runTrace (allOk cfg) root := by
  cases root with
  | none => exact List.prefix_rfl
  | some t => exact (walkTree_sim cfg t t St.init).2

/-! ## The take-first sampler is a valid sampler -/

theorem takeSampler_spec : SampleSpec takeSampler := by
  intro l k hk
  refine ⟨List.length_take_of_le hk, fun x hx => List.take_subset k l hx,
    fun hn => hn.sublist (List.take_sublist k l)⟩

/-! ## With a valid sampler, a full-length sample contains every entry -/

theorem sample_all_mem (sp : List String → Nat → List String)
    (hs : SampleSpec sp) (l : List String) (hnd : l.Nodup) (f : String)
    (hf : f ∈ l) : f ∈ sp l l.length := by
  rcases hs l l.length le_rfl with ⟨hlen, hsub, hnodup⟩
  have hsubF : (sp l l.length).toFinset ⊆ l.toFinset := by
    intro x hx
    rw [List.mem_toFinset] at hx ⊢
    exact hsub x hx
  have hcard : l.toFinset.card ≤ (sp l l.length).toFinset.card := by
    rw [List.toFinset_card_of_nodup (hnodup hnd), List.toFinset_card_of_nodup hnd,
      hlen]
  have heq := Finset.eq_of_subset_of_card_le hsubF hcard
  have : f ∈ l.toFinset := List.mem_toFinset.mpr hf
  rw [← heq] at this
  exact List.mem_toFinset.mp this

/-! ## The anatomy of `filename.split(".")` -/

theorem splitOnChar_ne_nil (c : Char) (l : List Char) : splitOnChar c l ≠ [] := by
  cases l with
  | nil => simp [splitOnChar]
  | cons x xs =>
      unfold splitOnChar
      by_cases h : x = c
      · simp [h]
      · simp only [h, if_false]
        rcases hxs : splitOnChar c xs with _ | ⟨hd, tl⟩
        · simp
        · simp

theorem splitOnChar_head (c : Char) (l : List Char) :
    (splitOnChar c l).getD 0 [] = l.takeWhile (fun x => x ≠ c) := by
  induction l with
  | nil => simp [splitOnChar]
  | cons x xs ih =>
      by_cases h : x = c
      · subst h
        simp [splitOnChar, List.takeWhile_cons]
      · rcases hxs : splitOnChar c xs with _ | ⟨hd, tl⟩
        · exact absurd hxs (splitOnChar_ne_nil c xs)
        · rw [hxs] at ih
          simp only [splitOnChar, h, if_false, hxs, List.takeWhile_cons]
          simp only [List.getD_cons_zero] at ih ⊢
          simp [h, ih]

theorem splitOnChar_second (c : Char) (l : List Char) (hc : c ∈ l) :
    (splitOnChar c l).getD 1 [] =
      ((l.dropWhile (fun x => x ≠ c)).drop 1).takeWhile (fun x => x ≠ c) := by
  induction l with
  | nil => cases hc
  | cons x xs ih =>
      by_cases h : x = c
      · subst h
        have hhead := splitOnChar_head x xs
        simp [splitOnChar, List.dropWhile_cons]
        simpa using hhead
      · have hcxs : c ∈ xs := by
          rcases List.mem_cons.mp hc with h1 | h1
          · exact absurd h1.symm h
          · exact h1
        rcases hxs : splitOnChar c xs with _ | ⟨hd, tl⟩
        · exact absurd hxs (splitOnChar_ne_nil c xs)
        · rw [hxs] at ih
          simp only [splitOnChar, h, if_false, hxs, List.dropWhile_cons]
          simp only [List.getD_cons_succ, List.getD_cons_zero] at ih ⊢
          simpa [h] using ih hcxs

theorem augNameL_eq_secondSegment (l : List Char) (hc : '.' ∈ l) :
    augNameL l =
      l.takeWhile (fun x => x ≠ '.') ++ ("-aug.".toList) ++
        ((l.dropWhile (fun x => x ≠ '.')).drop 1).takeWhile (fun x => x ≠ '.') := by
  rw [augNameL, splitOnChar_head, splitOnChar_second '.' l hc]

theorem eligible_dot (s : String) (h : eligible s = true) : '.' ∈ s.toList := by
  rcases Bool.or_eq_true_iff.mp h with h1 | h1
  · have hs := List.isSuffixOf_iff_suffix.mp h1
    exact hs.mem (by decide)
  · have hs := List.isSuffixOf_iff_suffix.mp h1
    exact hs.mem (by decide)

/-! ## An error-free run lists every non-`augmented` subdirectory name of
every visited directory (at its root-joined path) -/

theorem andThen_none (r : St × List Event × Option String)
    (k : St → St × List Event × Option String)
    (h : (andThen r k).2.2 = none) :
    r.2.2 = none ∧ (k r.1).2.2 = none ∧
      (andThen r k).2.1 = r.2.1 ++ (k r.1).2.1 := by
  rcases he : r.2.2 with _ | err
  · rw [andThen_ok _ _ he] at h ⊢
    exact ⟨rfl, h, rfl⟩
  · rw [andThen_err _ _ _ he] at h
    rw [he] at h
    cases h

theorem processFolder_listE (cfg : Config) (root : FSTree) (st : St) (d : String)
    (h : (processFolder cfg root st d).2.2 = none) :
    ∃ es, Event.listE [d] es ∈ (processFolder cfg root st d).2.1 := by
  rcases hls : listdir root st [d] with _ | files
  · simp [processFolder, hls] at h
  · exact ⟨files, by simp [processFolder, hls]⟩

theorem processDirnames_listE (cfg : Config) (root : FSTree) (ds : List String) :
    ∀ st : St, (processDirnames cfg root st ds).2.2 = none →
      ∀ d ∈ ds, d ≠ "augmented" →
        ∃ es, Event.listE [d] es ∈ (processDirnames cfg root st ds).2.1 := by
  induction ds with
  | nil => intro st _ d hd; cases hd
  | cons g rest ih =>
      intro st hok d hd hda
      unfold processDirnames at hok ⊢
      by_cases hga : g = "augmented"
      · simp only [hga, if_true] at hok ⊢
        rcases List.mem_cons.mp hd with h1 | h1
        · exact absurd (h1 ▸ hga) (h1 ▸ hda)
        · exact ih st hok d h1 hda
      · simp only [hga, if_false] at hok ⊢
        rcases andThen_none _ _ hok with ⟨h1, h2, h3⟩
        rw [h3]
        rcases List.mem_cons.mp hd with hh | hh
        · subst hh
          rcases processFolder_listE cfg root st d h1 with ⟨es, hes⟩
          exact ⟨es, List.mem_append_left _ hes⟩
        · rcases ih _ h2 d hh hda with ⟨es, hes⟩
          exact ⟨es, List.mem_append_right _ hes⟩

mutual
theorem walkTree_listE (cfg : Config) (root : FSTree) (t : FSTree) (st : St)
    (p : List String) (hok : (walkTree cfg root t st).2.2 = none) :
    ∀ fr ∈ framesTree p t, ∀ d ∈ fr.2, d ≠ "augmented" →
      ∃ es, Event.listE [d] es ∈ (walkTree cfg root t st).2.1 := by
  match t with
  | FSTree.file n => intro fr hfr; simp [framesTree] at hfr
  | FSTree.dir n cs =>
      intro fr hfr d hd hda
      unfold walkTree at hok ⊢
      rcases andThen_none _ _ hok with ⟨h1, h2, h3⟩
      rw [h3]
      simp only [framesTree, List.mem_cons] at hfr
      rcases hfr with hfr | hfr
      · subst hfr
        rcases processDirnames_listE cfg root (subdirNames cs) st h1 d hd hda
          with ⟨es, hes⟩
        exact ⟨es, List.mem_append_left _ hes⟩
      · rcases walkList_listE cfg root cs _ p h2 fr hfr d hd hda with ⟨es, hes⟩
        exact ⟨es, List.mem_append_right _ hes⟩

theorem walkList_listE (cfg : Config) (root : FSTree) (ts : List FSTree) (st : St)
    (p : List String) (hok : (walkList cfg root ts st).2.2 = none) :
    ∀ fr ∈ framesTreeList p ts, ∀ d ∈ fr.2, d ≠ "augmented" →
      ∃ es, Event.listE [d] es ∈ (walkList cfg root ts st).2.1 := by
  match ts with
  | [] => intro fr hfr; simp [framesTreeList] at hfr
  | t :: rest =>
      intro fr hfr d hd hda
      unfold walkList at hok ⊢
      rcases andThen_none _ _ hok with ⟨h1, h2, h3⟩
      rw [h3]
      simp only [framesTreeList, List.mem_append] at hfr
      rcases hfr with hfr | hfr
      · rcases walkTree_listE cfg root t st (p ++ [t.nm]) h1 fr hfr d hd hda
          with ⟨es, hes⟩
        exact ⟨es, List.mem_append_left _ hes⟩
      · rcases walkList_listE cfg root rest _ p h2 fr hfr d hd hda with ⟨es, hes⟩
        exact ⟨es, List.mem_append_right _ hes⟩
end

theorem runTrace_listE (cfg : Config) (t : FSTree)
    (hok : runErr cfg (some t) = none) :
    ∀ fr ∈ framesTree [] t, ∀ d ∈ fr.2, d ≠ "augmented" →
      ∃ es, Event.listE [d] es ∈ runTrace cfg (some t) := by
  exact walkTree_listE cfg t t St.init [] hok

/-! ## Per-round characterisation of a folder's processing -/

theorem processFolder_trace (cfg : Config) (root : FSTree) (st : St) (d : String)
    (files : List String) (hls : listdir root st [d] = some files) :
    (processFolder cfg root st d).2.1 =
      Event.listE [d] files ::
        (processFiles cfg root st d
          (cfg.sample files (min cfg.quantity files.length))).2.1 := by
  simp [processFolder, hls]

theorem processFolder_readCount_aux (cfg : Config) (root : FSTree) (st : St)
    (d : String) (files : List String) (hs : SampleSpec cfg.sample)
    (hls : listdir root st [d] = some files) (hnd : files.Nodup)
    (hok : (processFolder cfg root st d).2.2 = none) :
    ∀ f, readCount (processFolder cfg root st d).2.1 [d, f] =
      if f ∈ cfg.sample files (min cfg.quantity files.length) ∧ eligible f = true
      then 1 else 0 := by
  intro f
  have hmin : min cfg.quantity files.length ≤ files.length := Nat.min_le_right _ _
  rcases hs files (min cfg.quantity files.length) hmin with ⟨hlen, hsub, hnodup⟩
  have hok2 : (processFiles cfg root st d
      (cfg.sample files (min cfg.quantity files.length))).2.2 = none := by
    simpa [processFolder, hls] using hok
  have hcount := processFiles_readCount cfg root d
    (cfg.sample files (min cfg.quantity files.length)) (hnodup hnd) st hok2 f
  rw [processFolder_trace cfg root st d files hls, readCount, List.count_cons]
  rw [readCount] at hcount
  simp [hcount]

/-! ## The claims -/

/-- C1 (counterexample): on the tree `root/A/B/b.jpg` — subdirectories
nested two levels deep — the frame of the visited directory `root/A` has
subdirectory name `B ≠ "augmented"`, yet the run never lists the actual
subdirectory `A/B`: it lists `A` (root-joined), then aborts trying to list
the non-existent root-joined path `B`; the whole trace is the single
listing of `A`. -/
theorem c1_counterexample :
    (["A"], ["B"]) ∈ framesTree [] treeDeep ∧
    runTrace (cfgW 1) (some treeDeep) = [Event.listE ["A"] ["B"]] ∧
    runErr (cfgW 1) (some treeDeep) = some "listdir failure" := by
  refine ⟨by decide, by decide, by decide⟩

/-- C1 (amended): every listing a run performs is of a single-component
path — the ROOT joined with a subdirectory name, not the visited directory
joined with it — and, when the run finishes without error, every
non-`augmented` subdirectory name `d` of every visited directory did get
its root-joined path `[d]` listed. -/
theorem c1_amended (cfg : Config) (t : FSTree) :
    (∀ p es, Event.listE p es ∈ runTrace cfg (some t) → ∃ d, p = [d]) ∧
    (runErr cfg (some t) = none →
      ∀ fr ∈ framesTree [] t, ∀ d ∈ fr.2, d ≠ "augmented" →
        ∃ es, Event.listE [d] es ∈ runTrace cfg (some t)) := by
  constructor
  · intro p es hmem
    rcases runTrace_shape cfg (some t) _ hmem with ⟨d, hd, _⟩
    exact ⟨d, hd⟩
  · intro hok
    exact runTrace_listE cfg t hok

/-- C1 (witness for the amended theorem): on the flat tree `root/A/b.jpg`
the run succeeds, and the amended theorem yields the listing of `[A]`. -/
theorem c1_amended_witness :
    ∃ es, Event.listE ["A"] es ∈ runTrace (cfgW 1) (some treeFlat) :=
  (c1_amended (cfgW 1) treeFlat).2 (by decide) ([], ["A"])
    (by decide) "A" (by decide) (by decide)

/-- C2 (counterexample): `root/catA/{b.txt, a.jpg}` with `quantity = 1`
and a valid sampler that draws `b.txt`: the folder has exactly `1 ≥
quantity` eligible image, yet the run processes nothing — the sample is
drawn from all entries, not from the eligible ones, so the drawn `.txt`
file is merely skipped. -/
theorem c2_counterexample :
    SampleSpec (cfgW 1).sample ∧
    eligibleCount ["b.txt", "a.jpg"] = 1 ∧
    runTrace (cfgW 1) (some treeMixed) =
      [Event.listE ["catA"] ["b.txt", "a.jpg"]] ∧
    runErr (cfgW 1) (some treeMixed) = none :=
  ⟨takeSampler_spec, by decide, by decide, by decide⟩

/-- C2 (amended): in one sampling round of a category folder,
`min(quantity, entryCount)` entries are drawn without replacement from ALL
entries of the folder; each drawn entry that is an eligible image is
loaded exactly once in that round and each other name exactly zero times —
so a folder with at least `quantity` eligible images can still yield fewer
than `quantity` processed images when ineligible entries are drawn. -/
theorem c2_amended (cfg : Config) (root : FSTree) (st : St) (d : String)
    (files : List String) (hs : SampleSpec cfg.sample)
    (hls : listdir root st [d] = some files) (hnd : files.Nodup)
    (hok : (processFolder cfg root st d).2.2 = none) :
    (cfg.sample files (min cfg.quantity files.length)).length =
      min cfg.quantity files.length ∧
    ∀ f, readCount (processFolder cfg root st d).2.1 [d, f] =
      if f ∈ cfg.sample files (min cfg.quantity files.length) ∧ eligible f = true
      then 1 else 0 := by
  refine ⟨(hs files (min cfg.quantity files.length) (Nat.min_le_right _ _)).1, ?_⟩
  exact processFolder_readCount_aux cfg root st d files hs hls hnd hok

/-- C2 (witness): on `root/catA/{b.txt, a.jpg}` with `quantity = 2` the
round samples both entries and reads `a.jpg` exactly once. -/
theorem c2_amended_witness :
    ((cfgW 2).sample ["b.txt", "a.jpg"] (min (cfgW 2).quantity 2)).length =
      min (cfgW 2).quantity 2 ∧
    readCount (processFolder (cfgW 2) treeMixed St.init "catA").2.1
      ["catA", "a.jpg"] =
      if "a.jpg" ∈ (cfgW 2).sample ["b.txt", "a.jpg"]
          (min (cfgW 2).quantity ["b.txt", "a.jpg"].length) ∧
        eligible "a.jpg" = true then 1 else 0 :=
  ⟨(c2_amended (cfgW 2) treeMixed St.init "catA" ["b.txt", "a.jpg"]
      takeSampler_spec (by decide) (by decide) (by decide)).1,
   (c2_amended (cfgW 2) treeMixed St.init "catA" ["b.txt", "a.jpg"]
      takeSampler_spec (by decide) (by decide) (by decide)).2 "a.jpg"⟩

/-- C3 (counterexample): `root/catA/{b.txt, c.txt, a.jpg}` with
`quantity = 2` and a valid sampler that draws the two `.txt` entries: the
folder has fewer eligible images (one) than `quantity`, yet its eligible
image `a.jpg` is processed zero times, not exactly once — the sample is
drawn from all entries and may miss the eligible ones. -/
theorem c3_counterexample :
    SampleSpec (cfgW 2).sample ∧
    eligibleCount ["b.txt", "c.txt", "a.jpg"] = 1 ∧
    eligibleCount ["b.txt", "c.txt", "a.jpg"] < 2 ∧
    runTrace (cfgW 2) (some treeFew) =
      [Event.listE ["catA"] ["b.txt", "c.txt", "a.jpg"]] ∧
    runErr (cfgW 2) (some treeFew) = none :=
  ⟨takeSampler_spec, by decide, by decide, by decide, by decide⟩

/-- C3 (amended): in one sampling round of a category folder whose TOTAL
entry count is at most `quantity`, every entry is drawn, so every eligible
image of the folder is loaded exactly once in that round. -/
theorem c3_amended (cfg : Config) (root : FSTree) (st : St) (d : String)
    (files : List String) (hs : SampleSpec cfg.sample)
    (hls : listdir root st [d] = some files) (hnd : files.Nodup)
    (hok : (processFolder cfg root st d).2.2 = none)
    (hfl : files.length ≤ cfg.quantity) :
    ∀ f ∈ files, eligible f = true →
      readCount (processFolder cfg root st d).2.1 [d, f] = 1 := by
  intro f hf hel
  have hmin : min cfg.quantity files.length = files.length :=
    Nat.min_eq_right hfl
  have hcount := processFolder_readCount_aux cfg root st d files hs hls hnd hok f
  rw [hmin] at hcount
  have hmem : f ∈ cfg.sample files files.length :=
    sample_all_mem cfg.sample hs files hnd f hf
  rw [hcount]
  simp [hmem, hel]

/-- C3 (witness): on `root/catA/{b.txt, c.txt, a.jpg}` with
`quantity = 3` every entry is drawn and `a.jpg` is read exactly once. -/
theorem c3_amended_witness :
    "a.jpg" ∈ ["b.txt", "c.txt", "a.jpg"] ∧
    readCount (processFolder (cfgW 3) treeFew St.init "catA").2.1
      ["catA", "a.jpg"] = 1 :=
  ⟨by decide,
   c3_amended (cfgW 3) treeFew St.init "catA" ["b.txt", "c.txt", "a.jpg"]
     takeSampler_spec (by decide) (by decide) (by decide) (by decide)
     "a.jpg" (by decide) (by decide)⟩

/-- C4 (counterexample): for the eligible multi-dot name `img.photo.png`
the code's output name `img-aug.photo` differs from the claim's "text
after the first dot" prediction `img-aug.photo.png`; on the tree
`root/cat/img.photo.png` the run writes the former and never the
latter. -/
theorem c4_counterexample :
    eligible "img.photo.png" = true ∧
    augName "img.photo.png" ≠ augNameFirstSplit "img.photo.png" ∧
    Event.writeE ["cat", "augmented", augName "img.photo.png"] ∈
      runTrace (cfgW 1) (some treeDots) ∧
    Event.writeE ["cat", "augmented", augNameFirstSplit "img.photo.png"] ∉
      runTrace (cfgW 1) (some treeDots) :=
  ⟨by decide, by decide, by decide, by decide⟩

/-- C4 (amended): for every eligible source filename, the output filename
is the text before the first `.`, then `-aug.`, then the text strictly
BETWEEN the first and the second `.` (everything from the second dot on is
dropped; when there is no second dot this is the whole remainder). -/
theorem c4_amended (s : String) (h : eligible s = true) :
    augName s = augNameSecondSegment s := by
  have hdot := eligible_dot s h
  rw [augName, augNameSecondSegment, augNameL_eq_secondSegment s.toList hdot]

/-- C4 (witness for the amended theorem): at the concrete eligible name
`cat.jpg`. -/
theorem c4_amended_witness :
    eligible "cat.jpg" = true ∧ augName "cat.jpg" = augNameSecondSegment "cat.jpg" :=
  ⟨by decide, c4_amended "cat.jpg" (by decide)⟩

/-- C5: the computed output name for the single-dot source `cat.jpg` is
`cat-aug.jpg`, and for the multi-dot source `img.photo.png` it is
`img-aug.photo` — the split keeps only the segment between the first and
second dot; on the tree `root/cat/img.photo.png` exactly that name is
written. -/
theorem c5_output_names :
    augName "cat.jpg" = "cat-aug.jpg" ∧
    augName "img.photo.png" = "img-aug.photo" ∧
    Event.writeE ["cat", "augmented", "img-aug.photo"] ∈
      runTrace (cfgW 1) (some treeDots) :=
  ⟨by decide, by decide, by decide⟩

/-- C6: a directory named `augmented` is never sampled as a source
category: every listing a run performs is of a single-component path whose
name differs from `augmented` (so no `augmented` directory's entries are
ever listed), and every file opened for decoding sits directly inside such
a non-`augmented` folder (so no content of an `augmented` directory is
ever read as a source image). -/
theorem c6_augmented_never_source (cfg : Config) (root : Option FSTree) :
    (∀ p es, Event.listE p es ∈ runTrace cfg root →
      ∃ d, p = [d] ∧ d ≠ "augmented") ∧
    (∀ p, Event.readE p ∈ runTrace cfg root →
      ∃ d f, p = [d, f] ∧ d ≠ "augmented") := by
  constructor
  · intro p es h
    exact runTrace_shape cfg root _ h
  · intro p h
    rcases runTrace_shape cfg root _ h with ⟨d, f, hp, hd, _⟩
    exact ⟨d, f, hp, hd⟩

/-- C6 (witness): the listing of `[A]` in the run over `root/A/b.jpg`. -/
theorem c6_witness :
    ∃ d, (["A"] : List String) = [d] ∧ d ≠ "augmented" :=
  (c6_augmented_never_source (cfgW 1) (some treeFlat)).1 ["A"] ["b.jpg"]
    (by decide)

/-- C7: with `quantity = 0` and a valid sampler, a run over any root
leaves the filesystem untouched — the final overlay is the initial one
(no `augmented` directory created, no file written), and the trace
contains no directory creation and no write. -/
theorem c7_quantity_zero (cfg : Config) (root : Option FSTree)
    (hs : SampleSpec cfg.sample) (hq : cfg.quantity = 0) :
    runSt cfg root = St.init ∧
    (∀ p, Event.mkdirE p ∉ runTrace cfg root) ∧
    (∀ p, Event.writeE p ∉ runTrace cfg root) := by
  cases root with
  | none =>
      exact ⟨rfl, fun p hp => by simp [runTrace, augmentRun] at hp,
        fun p hp => by simp [runTrace, augmentRun] at hp⟩
  | some t =>
      rcases walkTree_q0 cfg t t St.init hs hq with ⟨hst, hev⟩
      refine ⟨hst, ?_, ?_⟩
      · intro p hp
        rcases hev _ hp with ⟨q, es, h⟩
        cases h
      · intro p hp
        rcases hev _ hp with ⟨q, es, h⟩
        cases h

/-- C7 (witness): the `quantity = 0` run over `root/A/b.jpg`. -/
theorem c7_witness :
    runSt (cfgW 0) (some treeFlat) = St.init ∧
    Event.mkdirE ["A", "augmented"] ∉ runTrace (cfgW 0) (some treeFlat) :=
  ⟨(c7_quantity_zero (cfgW 0) (some treeFlat) takeSampler_spec rfl).1,
   (c7_quantity_zero (cfgW 0) (some treeFlat) takeSampler_spec rfl).2.1
     ["A", "augmented"]⟩

/-- C8: a sampled entry whose name does not end in `.jpg` or `.png` is
never opened for decoding and never produces an output: every read of a
run is of a file with an eligible name, and every write is of
`[d, "augmented", augName f]` for some eligible source name `f`. -/
theorem c8_extension_filter (cfg : Config) (root : Option FSTree) :
    (∀ p, Event.readE p ∈ runTrace cfg root →
      ∃ d f, p = [d, f] ∧ eligible f = true) ∧
    (∀ p, Event.writeE p ∈ runTrace cfg root →
      ∃ d f, eligible f = true ∧ p = [d, "augmented", augName f]) := by
  constructor
  · intro p h
    rcases runTrace_shape cfg root _ h with ⟨d, f, hp, _, hel⟩
    exact ⟨d, f, hp, hel⟩
  · intro p h
    rcases runTrace_shape cfg root _ h with ⟨d, f, hp, _, hel⟩
    exact ⟨d, f, hel, hp⟩

/-- C8 (witness): the read of `A/b.jpg` in the run over `root/A/b.jpg`. -/
theorem c8_witness :
    ∃ d f, (["A", "b.jpg"] : List String) = [d, f] ∧ eligible f = true :=
  (c8_extension_filter (cfgW 1) (some treeFlat)).1 ["A", "b.jpg"] (by decide)

/-- C9 (counterexample): a missing root directory does NOT propagate an
uncaught error — `os.walk` with its default `onerror=None` swallows the
scandir failure — so the run over a missing root completes with no error,
no events and an untouched filesystem, contradicting the claim that such
a failure aborts the run with a propagated error. -/
theorem c9_counterexample :
    augmentRun (cfgW 1) none = (St.init, [], none) := by decide

/-- C9 (amended): failures of listing, decoding, transforming or writing
abort the run at that point — whatever a run does is a prefix of what the
same run with failure-free collaborators does, and an error-free run does
exactly that much — while a missing root directory raises nothing: the
walk yields no entries and the run completes silently with no output. -/
theorem c9_amended (cfg : Config) (root : Option FSTree) :
    (runTrace cfg none = [] ∧ runErr cfg none = none) ∧
    runTrace cfg root <+: runTrace (allOk cfg) root ∧
    (runErr cfg root = none →
      runTrace cfg root = runTrace (allOk cfg) root) := by
  refine ⟨⟨rfl, rfl⟩, runTrace_sim cfg root, ?_⟩
  intro hok
  cases root with
  | none => rfl
  | some t =>
      have h := (walkTree_sim cfg t t St.init).1 hok
      show (walkTree cfg t t St.init).2.1 = (walkTree (allOk cfg) t t St.init).2.1
      rw [h]

/-- C9 (witness for the amended theorem): on `root/A/b.jpg` with
failure-free collaborators the run errs nowhere, so its trace equals the
reference trace. -/
theorem c9_amended_witness :
    runTrace (cfgW 1) (some treeFlat) = runTrace (allOk (cfgW 1)) (some treeFlat) :=
  (c9_amended (cfgW 1) (some treeFlat)).2.2 (by decide)

/-- C10: every write of a run targets a path whose immediate parent
directory is named `augmented` (both in the trace and in the final
overlay of written files), and every directory the run creates is itself
a `<d>/augmented` directory — so nothing is ever written outside an
`augmented` directory, and source files (which live outside `augmented`
directories) are never overwritten; the routine performs no deletions at
all. -/
theorem c10_frame_effect (cfg : Config) (root : Option FSTree) :
    (∀ p, Event.writeE p ∈ runTrace cfg root → ∃ d g, p = [d, "augmented", g]) ∧
    (∀ p ∈ (runSt cfg root).written, ∃ d g, p = [d, "augmented", g]) ∧
    (∀ p, Event.mkdirE p ∈ runTrace cfg root → ∃ d, p = [d, "augmented"]) ∧
    (∀ p ∈ (runSt cfg root).created, ∃ d, p = [d, "augmented"]) := by
  have hw : ∀ p, Event.writeE p ∈ runTrace cfg root →
      ∃ d g, p = [d, "augmented", g] := by
    intro p h
    rcases runTrace_shape cfg root _ h with ⟨d, f, hp, _, _⟩
    exact ⟨d, augName f, hp⟩
  have hm : ∀ p, Event.mkdirE p ∈ runTrace cfg root →
      ∃ d, p = [d, "augmented"] := by
    intro p h
    rcases runTrace_shape cfg root _ h with ⟨d, hp, _⟩
    exact ⟨d, hp⟩
  refine ⟨hw, ?_, hm, ?_⟩
  · intro p hp
    rw [(runSt_eq cfg root).2] at hp
    rcases List.mem_filterMap.mp hp with ⟨e, he, hfe⟩
    cases e with
    | listE a b => simp at hfe
    | readE q => simp at hfe
    | mkdirE q => simp at hfe
    | writeE q =>
        simp only [Option.some.injEq] at hfe
        subst hfe
        exact hw q he
  · intro p hp
    rw [(runSt_eq cfg root).1] at hp
    rcases List.mem_filterMap.mp hp with ⟨e, he, hfe⟩
    cases e with
    | listE a b => simp at hfe
    | readE q => simp at hfe
    | writeE q => simp at hfe
    | mkdirE q =>
        simp only [Option.some.injEq] at hfe
        subst hfe
        exact hm q he

/-- C10 (witness): the write of `A/augmented/b-aug.jpg` in the run over
`root/A/b.jpg`. -/
theorem c10_witness :
    ∃ d g, (["A", "augmented", "b-aug.jpg"] : List String) = [d, "augmented", g] :=
  (c10_frame_effect (cfgW 1) (some treeFlat)).1 ["A", "augmented", "b-aug.jpg"]
    (by decide)
